import Mathlib

/-!
# Verification of the d-complete poset hook-length computation

This file gives a shallow embedding of `DCompletePoset._hooks`, `get_hook`
and `get_hooks` from `src/sage/combinat/posets/d_complete.py`, together with
a model of `ImageManifoldSubset.__contains__` from
`src/sage/manifolds/continuous_map_image.py`, and proves properties of the
computation.

A finite poset is represented by its Hasse diagram: a list of elements
(natural numbers) and a list of cover edges `(a, b)` meaning `a` is covered
by `b`.  The primitive poset queries (`lower_covers`, `upper_covers`,
`minimal_elements`, `order_ideal_cardinality`, path counting and the
`diamonds` enumeration) are methods of the external poset collaborator and
are modelled from the specification; the hook computation itself is a direct
translation of the Python source.
-/

/-- A finite poset presented by its Hasse diagram: the element list and the
list of cover edges `(a, b)` with `a` covered by `b`. -/
structure DPoset where
  elems  : List Nat
  covers : List (Nat × Nat)
deriving DecidableEq

/-- Modelled from the spec: `upper_covers(e)` of the external poset
collaborator returns the direct successors of `e` in the Hasse diagram. -/
def upper_covers (P : DPoset) (e : Nat) : List Nat :=
  (P.covers.filter (fun p => p.1 == e)).map (fun p => p.2)

/-- Modelled from the spec: `lower_covers(e)` of the external poset
collaborator returns the direct predecessors of `e` in the Hasse diagram. -/
def lower_covers (P : DPoset) (e : Nat) : List Nat :=
  (P.covers.filter (fun p => p.2 == e)).map (fun p => p.1)

/-- Modelled from the spec: `minimal_elements()` of the external poset
collaborator returns the elements with no lower cover. -/
def minimal_elements (P : DPoset) : List Nat :=
  P.elems.filter (fun e => (lower_covers P e).isEmpty)

/-- Bounded upward reachability along cover edges: `belowFuel P f a b` holds
when there is a directed cover path from `a` to `b` of length at most `f`. -/
def belowFuel (P : DPoset) : Nat → Nat → Nat → Bool
  | 0, a, b => a == b
  | f+1, a, b => a == b || (upper_covers P a).any (fun c => belowFuel P f c b)

/-- Modelled from the spec: `order_ideal_cardinality([e])` of the external
poset collaborator counts the elements weakly below `e`.  On a DAG every
cover path has fewer than `P.elems.length` edges, so that fuel suffices. -/
def order_ideal_cardinality (P : DPoset) (e : Nat) : Nat :=
  (P.elems.filter (fun x => belowFuel P P.elems.length x e)).length

/-- Bounded count of directed cover paths from `a` to `b`. -/
def pathCountFuel (P : DPoset) : Nat → Nat → Nat → Nat
  | 0, a, b => if a == b then 1 else 0
  | f+1, a, b =>
    if a == b then 1
    else ((upper_covers P a).map (fun c => pathCountFuel P f c b)).sum

/-- Modelled from the spec: the path-count query of the external poset
collaborator (`all_paths` on the Hasse diagram), counting distinct directed
paths between two elements. -/
def pathCount (P : DPoset) (a b : Nat) : Nat :=
  pathCountFuel P P.elems.length a b

/-- A diamond `(bottom, side1, side2, top)`: `bottom` is covered by both
sides and both sides are covered by `top`. -/
structure Diamond where
  bottom : Nat
  side1  : Nat
  side2  : Nat
  top    : Nat
deriving DecidableEq

/-- The unordered pairs of a list, in enumeration order. -/
def upairs : List Nat → List (Nat × Nat)
  | [] => []
  | x :: xs => xs.map (fun y => (x, y)) ++ upairs xs

/-- Modelled from the spec: `diamonds()` of the external poset collaborator
enumerates the base diamonds `(bottom, side1, side2, top)`: for each element
`w`, each unordered pair of upper covers of `w`, and each common upper cover
of that pair. -/
def diamonds (P : DPoset) : List Diamond :=
  P.elems.flatMap (fun w =>
    (upairs (upper_covers P w)).flatMap (fun xy =>
      ((upper_covers P xy.1).filter
          (fun z => (upper_covers P xy.2).contains z)).map
        (fun z => ⟨w, xy.1, xy.2, z⟩)))

/-- The auxiliary mappings built by `_hooks`: `min_diamond` (chain top to
chain bottom), `max_diamond` (chain bottom to chain top) and
`diamond_index` (chain top to position of its base diamond).  Python dicts
are modelled by association lists where a prepended pair shadows older
entries. -/
structure DiamondData where
  min_diamond   : List (Nat × Nat)
  max_diamond   : List (Nat × Nat)
  diamond_index : List (Nat × Nat)
deriving DecidableEq

/-- The candidate pairs examined by the extension loop of `_hooks`:
`[(i, j) for i in lower_covers(min_elmt) for j in upper_covers(max_elmt)]`. -/
def extCandidates (P : DPoset) (min_elmt max_elmt : Nat) : List (Nat × Nat) :=
  (lower_covers P min_elmt).flatMap
    (fun i => (upper_covers P max_elmt).map (fun j => (i, j)))

/-- The test applied to a candidate pair `(mn, mx)` in `_hooks`: `mx` has
exactly one lower cover and there are exactly two directed paths from `mn`
to `mx`. -/
def goodExt (P : DPoset) (c : Nat × Nat) : Bool :=
  (lower_covers P c.2).length == 1 && pathCount P c.1 c.2 == 2

/-- One search of the extension loop body: the first candidate pair (in
enumeration order) passing `goodExt`, if any. -/
def findExt (P : DPoset) (min_elmt max_elmt : Nat) : Option (Nat × Nat) :=
  (extCandidates P min_elmt max_elmt).find? (goodExt P)

/-- The working state of the chain-extension loop. -/
structure ChainState where
  min_elmt : Nat
  max_elmt : Nat
  dd : DiamondData
deriving DecidableEq

/-- The `while True` extension loop of `_hooks`, with explicit fuel: as long
as a candidate pair passes `goodExt`, move the working bottom and top to it
and record the new associations.  `P.elems.length` fuel always suffices on
an acyclic Hasse diagram (proved below). -/
def extendLoop (P : DPoset) (index : Nat) : Nat → ChainState → ChainState
  | 0, st => st
  | fuel+1, st =>
    match findExt P st.min_elmt st.max_elmt with
    | none => st
    | some (mn, mx) =>
      extendLoop P index fuel
        { min_elmt := mn, max_elmt := mx,
          dd := { min_diamond := (mx, mn) :: st.dd.min_diamond,
                  max_diamond := (mn, mx) :: st.dd.max_diamond,
                  diamond_index := (mx, index) :: st.dd.diamond_index } }

/-- Processing of one base diamond in `_hooks`: record its top/bottom
associations and run the extension loop from it. -/
def processDiamond (P : DPoset) (dd : DiamondData) (index : Nat)
    (d : Diamond) : DiamondData :=
  let dd0 : DiamondData :=
    { min_diamond := (d.top, d.bottom) :: dd.min_diamond,
      max_diamond := (d.bottom, d.top) :: dd.max_diamond,
      diamond_index := (d.top, index) :: dd.diamond_index }
  (extendLoop P index P.elems.length ⟨d.bottom, d.top, dd0⟩).dd

/-- The enumerated loop `for index, d in enumerate(diamonds)` of `_hooks`:
process each base diamond in order, carrying the running index. -/
def diamondDataAux (P : DPoset) : Nat → List Diamond → DiamondData → DiamondData
  | _, [], dd => dd
  | index, d :: rest, dd =>
    diamondDataAux P (index + 1) rest (processDiamond P dd index d)

/-- The first phase of `_hooks`: find all double-tailed diamonds and record
the min/max/index associations. -/
def diamondData (P : DPoset) : DiamondData :=
  diamondDataAux P 0 (diamonds P) ⟨[], [], []⟩

/-- The body of the breadth-first loop of `_hooks` for a dequeued element
`e`: outside `diamond_index` the hook is the order-ideal cardinality;
otherwise it is `hooks[side1] + hooks[side2] - hooks[min_diamond[e]]`.
A missing dictionary entry (Python `KeyError`) yields `none`. -/
def computeHook (P : DPoset) (dd : DiamondData) (ds : List Diamond)
    (hooks : List (Nat × Int)) (e : Nat) : Option Int :=
  match List.lookup e dd.diamond_index with
  | none => some (order_ideal_cardinality P e : Int)
  | some idx =>
    match ds.get? idx with
    | none => none
    | some d =>
      match List.lookup d.side1 hooks, List.lookup d.side2 hooks,
            (List.lookup e dd.min_diamond).bind
              (fun b => List.lookup b hooks) with
      | some h1, some h2, some hb => some (h1 + h2 - hb)
      | _, _, _ => none

/-- The enqueueing of upper covers in `_hooks`: append each cover not yet in
`enqueued` to the queue and mark it. -/
def enqueueCovers : List Nat → List Nat → List Nat → List Nat × List Nat
  | [], queue, enq => (queue, enq)
  | c :: cs, queue, enq =>
    if enq.contains c then enqueueCovers cs queue enq
    else enqueueCovers cs (queue ++ [c]) (c :: enq)

/-- Failure modes of the breadth-first loop: exhausted fuel, or a missing
dictionary entry (Python `KeyError`) while computing the hook of an
element. -/
inductive BfsFailure where
  | fuelExhausted : BfsFailure
  | missingHook : Nat → BfsFailure
deriving DecidableEq

/-- The breadth-first hook-computation loop of `_hooks`, with explicit fuel;
`P.elems.length` fuel always suffices (proved below). -/
def bfs (P : DPoset) (dd : DiamondData) (ds : List Diamond) :
    Nat → List Nat → List Nat → List (Nat × Int) →
    Except BfsFailure (List (Nat × Int))
  | _, [], _, hooks => .ok hooks
  | 0, _ :: _, _, _ => .error .fuelExhausted
  | fuel+1, e :: queue, enq, hooks =>
    match computeHook P dd ds hooks e with
    | none => .error (.missingHook e)
    | some v =>
      let qe := enqueueCovers (upper_covers P e) queue (e :: enq)
      bfs P dd ds fuel qe.1 qe.2 ((e, v) :: hooks)

/-- The whole `_hooks` computation: diamond detection and chain extension,
then the breadth-first hook propagation from the minimal elements. -/
def hooksRun (P : DPoset) : Except BfsFailure (List (Nat × Int)) :=
  bfs P (diamondData P) (diamonds P) P.elems.length (minimal_elements P) [] []

/-- `get_hook(e)`: look up the hook of `e`; `none` models the Python lookup
error. -/
def get_hook (P : DPoset) (e : Nat) : Option Int :=
  (hooksRun P).toOption.bind (fun hs => List.lookup e hs)

/-- The copy `dict(self._hooks)` made by `get_hooks`: a structurally fresh
association list with the same entries. -/
def dictCopy (hs : List (Nat × Int)) : List (Nat × Int) :=
  hs.foldr (fun p acc => p :: acc) []

/-- `get_hooks()`: the full mapping, returned as a copy. -/
def get_hooks (P : DPoset) : Except BfsFailure (List (Nat × Int)) :=
  (hooksRun P).map dictCopy

/-- The single-diamond example poset of the spec (scenario 1). -/
def P1 : DPoset := ⟨[0, 1, 2, 3], [(0, 1), (0, 2), (1, 3), (2, 3)]⟩

/-- The three-element chain of the spec (scenario 2). -/
def P2 : DPoset := ⟨[0, 1, 2], [(0, 1), (1, 2)]⟩

/-- The reversed Young-diagram poset of partition [3,2,1] (scenario 3). -/
def PY : DPoset :=
  ⟨[0, 1, 2, 3, 4, 5], [(1, 0), (3, 0), (2, 1), (4, 1), (4, 3), (5, 3)]⟩

/-- A valid finite poset, not d-complete, on which the breadth-first
traversal dequeues the diamond top `8` before its sides `5` and `6`: a long
tail `0 ⋖ 1 ⋖ 2 ⋖ 3 ⋖ 4` below the diamond `(4, 5, 6, 8)`, and a second
minimal element `7` covered by `8`. -/
def P9 : DPoset :=
  ⟨[0, 1, 2, 3, 4, 5, 6, 7, 8],
   [(0, 1), (1, 2), (2, 3), (3, 4), (4, 5), (4, 6), (5, 8), (6, 8), (7, 8)]⟩


/-- The `ImageManifoldSubset.__contains__` decision, abstracted over the two
external tests it consults: the inherited `ManifoldSubset` containment test
and membership of the point in the codomain of the map.  The source returns
`True` when the inherited test succeeds, then `False` when the point is not
in the codomain, and otherwise raises `NotImplementedError`. -/
inductive ContainsOutcome where
  | isTrue : ContainsOutcome
  | isFalse : ContainsOutcome
  | notImplementedError : ContainsOutcome
deriving DecidableEq

/-- Translation of `ImageManifoldSubset.__contains__`. -/
def imageSubsetContains (superContains inCodomain : Bool) : ContainsOutcome :=
  if superContains then .isTrue
  else if !inCodomain then .isFalse
  else .notImplementedError

/-- Modelled from the spec: the `lazy_attribute` cache of `_hooks`
(`sage.misc.lazy_attribute` is outside the excerpt).  The instance state is
the poset together with the optional cached result of `_hooks`. -/
structure HookCache where
  poset : DPoset
  cache : Option (Except BfsFailure (List (Nat × Int)))

/-- Modelled from the spec: reading the lazy attribute `_hooks` computes the
mapping on first access and caches it; later accesses return the cached
value.  The boolean records whether this access recomputed the mapping. -/
def accessHooks (st : HookCache) :
    Except BfsFailure (List (Nat × Int)) × HookCache × Bool :=
  match st.cache with
  | some r => (r, st, false)
  | none =>
    (hooksRun st.poset, { poset := st.poset, cache := some (hooksRun st.poset) },
     true)

/-- A call of `get_hooks()` on an instance: access `_hooks` and return
`dict(self._hooks)`, a fresh copy of the cached mapping. -/
def getHooksCall (st : HookCache) :
    Except BfsFailure (List (Nat × Int)) × HookCache × Bool :=
  ((accessHooks st).1.map dictCopy, (accessHooks st).2.1, (accessHooks st).2.2)

/-- A call of `get_hook(e)` on an instance: access `_hooks` and look up
`e`. -/
def getHookCall (st : HookCache) (e : Nat) :
    Option Int × HookCache × Bool :=
  ((accessHooks st).1.toOption.bind (fun hs => List.lookup e hs),
   (accessHooks st).2.1, (accessHooks st).2.2)

/-- The key list of an association list. -/
def keys {β : Type} (l : List (Nat × β)) : List Nat := l.map Prod.fst

/-- The cover-edge relation of the Hasse diagram: `a` is covered by `b`. -/
def stepRel (P : DPoset) (a b : Nat) : Prop := (a, b) ∈ P.covers

/-- Acyclicity of the covering relation: no element is strictly below
itself. -/
def AcyclicCovers (P : DPoset) : Prop :=
  ∀ a, ¬ Relation.TransGen (stepRel P) a a

/-- Well-formedness of the Hasse diagram presentation: the element list has
no duplicates and every cover edge joins listed elements. -/
def WF (P : DPoset) : Prop :=
  P.elems.Nodup ∧ ∀ p ∈ P.covers, p.1 ∈ P.elems ∧ p.2 ∈ P.elems

instance WF_decidable (P : DPoset) : Decidable (WF P) := by
  unfold WF
  infer_instance

/-- The invariant of the breadth-first loop of `_hooks`: the queue has no
duplicates and avoids already-hooked elements, everything lives in the
poset, the enqueued set covers exactly the queue and the hooked elements,
queue members are enqueued or minimal, upper covers of hooked elements are
enqueued, and the accumulated hooks satisfy the hook recurrence. -/
structure BfsInv (P : DPoset) (dd : DiamondData) (ds : List Diamond)
    (queue enq : List Nat) (hooks : List (Nat × Int)) : Prop where
  queue_nodup : queue.Nodup
  queue_sub   : ∀ x ∈ queue, x ∈ P.elems
  keys_sub    : ∀ x ∈ keys hooks, x ∈ P.elems
  keys_nodup  : (keys hooks).Nodup
  queue_keys  : ∀ x ∈ queue, x ∉ keys hooks
  enq_sub     : ∀ x ∈ enq, x ∈ queue ∨ x ∈ keys hooks
  keys_enq    : ∀ x ∈ keys hooks, x ∈ enq
  queue_min   : ∀ x ∈ queue, x ∈ enq ∨ lower_covers P x = []
  covers_enq  : ∀ x ∈ keys hooks, ∀ c ∈ upper_covers P x, c ∈ enq
  hook_fix    : ∀ x v, List.lookup x hooks = some v →
                  computeHook P dd ds hooks x = some v

theorem keys_cons {β : Type} (k : Nat) (v : β) (l : List (Nat × β)) :
    keys ((k, v) :: l) = k :: keys l := rfl

theorem lookup_cons {β : Type} (a k : Nat) (v : β) (l : List (Nat × β)) :
    List.lookup a ((k, v) :: l) = if a = k then some v else List.lookup a l := by
  by_cases h : a = k
  · simp [List.lookup, h]
  · have hb : (a == k) = false := by simp [h]
    simp [List.lookup, hb, h]

theorem lookup_cons_ne {β : Type} {a k : Nat} (v : β) (l : List (Nat × β))
    (h : a ≠ k) : List.lookup a ((k, v) :: l) = List.lookup a l := by
  rw [lookup_cons, if_neg h]

theorem lookup_isSome_iff {β : Type} {a : Nat} {l : List (Nat × β)} :
    (List.lookup a l).isSome = true ↔ a ∈ keys l := by
  induction l with
  | nil => simp [List.lookup, keys]
  | cons p t ih =>
    rcases p with ⟨k, w⟩
    rw [lookup_cons, keys_cons]
    by_cases h : a = k
    · subst h; simp
    · rw [if_neg h]
      simp only [List.mem_cons]
      constructor
      · intro hs; exact Or.inr (ih.mp hs)
      · rintro (rfl | hm)
        · exact absurd rfl h
        · exact ih.mpr hm

theorem lookup_mem_keys {β : Type} {a : Nat} {v : β} {l : List (Nat × β)}
    (h : List.lookup a l = some v) : a ∈ keys l := by
  apply lookup_isSome_iff.mp; rw [h]; rfl

theorem lookup_eq_none_iff {β : Type} {a : Nat} {l : List (Nat × β)} :
    List.lookup a l = none ↔ a ∉ keys l := by
  rw [← lookup_isSome_iff]
  cases List.lookup a l <;> simp

theorem mem_upper_covers {P : DPoset} {e c : Nat} :
    c ∈ upper_covers P e ↔ (e, c) ∈ P.covers := by
  unfold upper_covers
  simp only [List.mem_map, List.mem_filter, beq_iff_eq]
  constructor
  · rintro ⟨⟨x, y⟩, ⟨hm, hx⟩, rfl⟩
    subst hx
    exact hm
  · intro hm
    exact ⟨(e, c), ⟨hm, rfl⟩, rfl⟩

theorem mem_lower_covers {P : DPoset} {e c : Nat} :
    c ∈ lower_covers P e ↔ (c, e) ∈ P.covers := by
  unfold lower_covers
  simp only [List.mem_map, List.mem_filter, beq_iff_eq]
  constructor
  · rintro ⟨⟨x, y⟩, ⟨hm, hy⟩, rfl⟩
    subst hy
    exact hm
  · intro hm
    exact ⟨(c, e), ⟨hm, rfl⟩, rfl⟩

theorem lower_covers_ne_nil {P : DPoset} {x c : Nat} (h : (x, c) ∈ P.covers) :
    lower_covers P c ≠ [] := by
  intro hnil
  have := mem_lower_covers.mpr h
  rw [hnil] at this
  exact absurd this (List.not_mem_nil x)

theorem mem_minimal_elements {P : DPoset} {e : Nat} :
    e ∈ minimal_elements P ↔ e ∈ P.elems ∧ (lower_covers P e).isEmpty = true := by
  unfold minimal_elements
  exact List.mem_filter

/-- A rank function increasing along cover edges witnesses acyclicity. -/
theorem acyclic_of_rank (P : DPoset) (rank : Nat → Nat)
    (h : ∀ p ∈ P.covers, rank p.1 < rank p.2) : AcyclicCovers P := by
  intro a ha
  have key : ∀ x y, Relation.TransGen (stepRel P) x y → rank x < rank y := by
    intro x y hxy
    induction hxy with
    | single hs => exact h _ hs
    | tail _ hs ih => exact lt_trans ih (h _ hs)
  exact lt_irrefl _ (key a a ha)

theorem lookup_extend {β : Type} {e a : Nat} {w v : β} {l : List (Nat × β)}
    (he : e ∉ keys l) (h : List.lookup a l = some v) :
    List.lookup a ((e, w) :: l) = some v := by
  have hne : a ≠ e := fun hae => he (hae ▸ lookup_mem_keys h)
  rw [lookup_cons_ne _ _ hne]
  exact h

theorem find?_eq_some_iff_first {α : Type} (p : α → Bool) (l : List α) (a : α) :
    l.find? p = some a ↔
      p a = true ∧ ∃ l1 l2, l = l1 ++ a :: l2 ∧ ∀ x ∈ l1, p x = false := by
  induction l with
  | nil =>
    constructor
    · intro h; simp [List.find?] at h
    · rintro ⟨_, l1, l2, h, _⟩
      cases l1 <;> simp at h
  | cons b t ih =>
    by_cases hb : p b = true
    · rw [List.find?_cons_of_pos _ hb]
      constructor
      · intro h
        have hba : b = a := by injection h
        subst hba
        exact ⟨hb, [], t, rfl, by intro x hx; simp at hx⟩
      · rintro ⟨hpa, l1, l2, heq, hl1⟩
        cases l1 with
        | nil =>
          injection heq with h1 _
          rw [h1]
        | cons c l1' =>
          injection heq with h1 _
          have : p c = false := hl1 c (List.mem_cons_self c l1')
          rw [← h1] at this
          rw [hb] at this
          exact absurd this (by simp)
    · have hbf : p b = false := by
        cases hpb : p b
        · rfl
        · exact absurd hpb hb
      rw [List.find?_cons_of_neg _ (by simp [hbf])]
      rw [ih]
      constructor
      · rintro ⟨hpa, l1, l2, rfl, hl1⟩
        refine ⟨hpa, b :: l1, l2, rfl, ?_⟩
        intro x hx
        rcases List.mem_cons.mp hx with rfl | hx'
        · exact hbf
        · exact hl1 x hx'
      · rintro ⟨hpa, l1, l2, heq, hl1⟩
        cases l1 with
        | nil =>
          injection heq with h1 _
          rw [← h1] at hpa
          rw [hbf] at hpa
          exact absurd hpa (by simp)
        | cons c l1' =>
          injection heq with h1 h2
          subst h2
          exact ⟨hpa, l1', l2, rfl, fun x hx => hl1 x (List.mem_cons_of_mem c hx)⟩

theorem enqueueCovers_spec (covs : List Nat) :
    ∀ queue enq, ∃ news : List Nat,
      (enqueueCovers covs queue enq).1 = queue ++ news ∧
      news.Nodup ∧
      (∀ x ∈ news, x ∈ covs ∧ x ∉ enq) ∧
      (∀ x, x ∈ (enqueueCovers covs queue enq).2 ↔ (x ∈ enq ∨ x ∈ news)) ∧
      (∀ x ∈ covs, x ∈ (enqueueCovers covs queue enq).2) := by
  induction covs with
  | nil =>
    intro queue enq
    exact ⟨[], by simp [enqueueCovers], List.nodup_nil, by simp,
      by simp [enqueueCovers], by simp⟩
  | cons c cs ih =>
    intro queue enq
    by_cases hc : enq.contains c = true
    · have hcm : c ∈ enq := by simpa using hc
      have hunf : enqueueCovers (c :: cs) queue enq
          = if enq.contains c = true then enqueueCovers cs queue enq
            else enqueueCovers cs (queue ++ [c]) (c :: enq) := rfl
      rw [hunf, if_pos hc]
      obtain ⟨news, h1, h2, h3, h4, h5⟩ := ih queue enq
      refine ⟨news, h1, h2, ?_, h4, ?_⟩
      · intro x hx
        obtain ⟨hxc, hxe⟩ := h3 x hx
        exact ⟨List.mem_cons_of_mem _ hxc, hxe⟩
      · intro x hx
        rcases List.mem_cons.mp hx with rfl | hx'
        · exact (h4 x).mpr (Or.inl hcm)
        · exact h5 x hx'
    · have hcm : c ∉ enq := by simpa using hc
      have hunf : enqueueCovers (c :: cs) queue enq
          = if enq.contains c = true then enqueueCovers cs queue enq
            else enqueueCovers cs (queue ++ [c]) (c :: enq) := rfl
      rw [hunf, if_neg hc]
      obtain ⟨news, h1, h2, h3, h4, h5⟩ := ih (queue ++ [c]) (c :: enq)
      refine ⟨c :: news, ?_, ?_, ?_, ?_, ?_⟩
      · rw [h1, List.append_assoc]
        rfl
      · refine List.nodup_cons.mpr ⟨?_, h2⟩
        intro hcn
        exact (h3 c hcn).2 (List.mem_cons_self c enq)
      · intro x hx
        rcases List.mem_cons.mp hx with rfl | hx'
        · exact ⟨List.mem_cons_self _ _, hcm⟩
        · obtain ⟨hxc, hxe⟩ := h3 x hx'
          exact ⟨List.mem_cons_of_mem _ hxc,
            fun hxenq => hxe (List.mem_cons_of_mem _ hxenq)⟩
      · intro x
        rw [h4 x]
        constructor
        · rintro (hx | hx)
          · rcases List.mem_cons.mp hx with rfl | hx'
            · exact Or.inr (List.mem_cons_self _ _)
            · exact Or.inl hx'
          · exact Or.inr (List.mem_cons_of_mem _ hx)
        · rintro (hx | hx)
          · exact Or.inl (List.mem_cons_of_mem _ hx)
          · rcases List.mem_cons.mp hx with rfl | hx'
            · exact Or.inl (List.mem_cons_self _ _)
            · exact Or.inr hx'
      · intro x hx
        rcases List.mem_cons.mp hx with rfl | hx'
        · exact (h4 x).mpr (Or.inl (List.mem_cons_self _ _))
        · exact h5 x hx'

theorem computeHook_extend {P : DPoset} {dd : DiamondData} {ds : List Diamond}
    {hooks : List (Nat × Int)} {x e : Nat} {w v : Int}
    (he : e ∉ keys hooks) (h : computeHook P dd ds hooks x = some v) :
    computeHook P dd ds ((e, w) :: hooks) x = some v := by
  unfold computeHook at h ⊢
  rcases hidx : List.lookup x dd.diamond_index with _ | idx
  · simp only [hidx] at h ⊢
    exact h
  · rcases hd : ds.get? idx with _ | d
    · simp only [hidx, hd] at h
      exact absurd h (by simp)
    · rcases hb0 : List.lookup x dd.min_diamond with _ | b
      · rcases h1 : List.lookup d.side1 hooks with _ | v1 <;>
          rcases h2 : List.lookup d.side2 hooks with _ | v2 <;>
          simp only [hidx, hd, hb0, Option.none_bind, h1, h2] at h <;>
          exact absurd h (by simp)
      · rcases h1 : List.lookup d.side1 hooks with _ | v1
        · simp only [hidx, hd, hb0, Option.some_bind, h1] at h
          exact absurd h (by simp)
        · rcases h2 : List.lookup d.side2 hooks with _ | v2
          · simp only [hidx, hd, hb0, Option.some_bind, h1, h2] at h
            exact absurd h (by simp)
          · rcases h3 : List.lookup b hooks with _ | vb
            · simp only [hidx, hd, hb0, Option.some_bind, h1, h2, h3] at h
              exact absurd h (by simp)
            · simp only [hidx, hd, hb0, Option.some_bind, h1, h2, h3] at h
              simp only [hidx, hd, hb0, Option.some_bind,
                lookup_extend he h1, lookup_extend he h2, lookup_extend he h3]
              exact h

theorem bfsInv_init (P : DPoset) (dd : DiamondData) (ds : List Diamond)
    (hwf : WF P) : BfsInv P dd ds (minimal_elements P) [] [] := by
  constructor
  · exact hwf.1.filter _
  · intro x hx
    exact (mem_minimal_elements.mp hx).1
  · intro x hx
    exact absurd hx (List.not_mem_nil x)
  · exact List.nodup_nil
  · intro x _ hx
    exact absurd hx (List.not_mem_nil x)
  · intro x hx
    exact absurd hx (List.not_mem_nil x)
  · intro x hx
    exact absurd hx (List.not_mem_nil x)
  · intro x hx
    right
    exact List.isEmpty_iff.mp (mem_minimal_elements.mp hx).2
  · intro x hx
    exact absurd hx (List.not_mem_nil x)
  · intro x v h
    simp [List.lookup] at h

theorem bfsInv_step {P : DPoset} {dd : DiamondData} {ds : List Diamond}
    {e : Nat} {queue enq : List Nat} {hooks : List (Nat × Int)} {v : Int}
    (hwf : WF P)
    (inv : BfsInv P dd ds (e :: queue) enq hooks)
    (hv : computeHook P dd ds hooks e = some v) :
    BfsInv P dd ds
      (enqueueCovers (upper_covers P e) queue (e :: enq)).1
      (enqueueCovers (upper_covers P e) queue (e :: enq)).2
      ((e, v) :: hooks) := by
  obtain ⟨news, hq, hnodup, hnews, hiff, hall⟩ :=
    enqueueCovers_spec (upper_covers P e) queue (e :: enq)
  have he_elem : e ∈ P.elems := inv.queue_sub e (List.mem_cons_self _ _)
  have he_keys : e ∉ keys hooks := inv.queue_keys e (List.mem_cons_self _ _)
  have hqn : queue.Nodup := (List.nodup_cons.mp inv.queue_nodup).2
  have he_queue : e ∉ queue := (List.nodup_cons.mp inv.queue_nodup).1
  constructor
  · rw [hq]
    refine List.Nodup.append hqn hnodup ?_
    intro x hxq hxn
    obtain ⟨hxcov, hxenq⟩ := hnews x hxn
    rcases inv.queue_min x (List.mem_cons_of_mem _ hxq) with hxe | hxmin
    · exact hxenq (List.mem_cons_of_mem _ hxe)
    · exact lower_covers_ne_nil (mem_upper_covers.mp hxcov) hxmin
  · intro x hx
    rw [hq] at hx
    rcases List.mem_append.mp hx with hxq | hxn
    · exact inv.queue_sub x (List.mem_cons_of_mem _ hxq)
    · exact (hwf.2 _ (mem_upper_covers.mp (hnews x hxn).1)).2
  · intro x hx
    rw [keys_cons] at hx
    rcases List.mem_cons.mp hx with rfl | hx'
    · exact he_elem
    · exact inv.keys_sub x hx'
  · rw [keys_cons]
    exact List.nodup_cons.mpr ⟨he_keys, inv.keys_nodup⟩
  · intro x hx
    rw [hq] at hx
    rw [keys_cons]
    rcases List.mem_append.mp hx with hxq | hxn
    · intro hmem
      rcases List.mem_cons.mp hmem with rfl | hk
      · exact he_queue hxq
      · exact inv.queue_keys x (List.mem_cons_of_mem _ hxq) hk
    · obtain ⟨hxcov, hxenq⟩ := hnews x hxn
      intro hmem
      rcases List.mem_cons.mp hmem with rfl | hk
      · exact hxenq (List.mem_cons_self _ _)
      · exact hxenq (List.mem_cons_of_mem _ (inv.keys_enq x hk))
  · intro x hx
    rcases (hiff x).mp hx with hxe | hxn
    · rcases List.mem_cons.mp hxe with rfl | hxenq
      · right
        rw [keys_cons]
        exact List.mem_cons_self _ _
      · rcases inv.enq_sub x hxenq with hxq | hxk
        · rcases List.mem_cons.mp hxq with rfl | hxq'
          · right
            rw [keys_cons]
            exact List.mem_cons_self _ _
          · left
            rw [hq]
            exact List.mem_append_left _ hxq'
        · right
          rw [keys_cons]
          exact List.mem_cons_of_mem _ hxk
    · left
      rw [hq]
      exact List.mem_append_right _ hxn
  · intro x hx
    rw [keys_cons] at hx
    rcases List.mem_cons.mp hx with rfl | hx'
    · exact (hiff x).mpr (Or.inl (List.mem_cons_self _ _))
    · exact (hiff x).mpr (Or.inl (List.mem_cons_of_mem _ (inv.keys_enq x hx')))
  · intro x hx
    rw [hq] at hx
    rcases List.mem_append.mp hx with hxq | hxn
    · rcases inv.queue_min x (List.mem_cons_of_mem _ hxq) with hxe | hxmin
      · left
        exact (hiff x).mpr (Or.inl (List.mem_cons_of_mem _ hxe))
      · right
        exact hxmin
    · left
      exact (hiff x).mpr (Or.inr hxn)
  · intro x hx c hc
    rw [keys_cons] at hx
    rcases List.mem_cons.mp hx with rfl | hx'
    · exact hall c hc
    · exact (hiff c).mpr
        (Or.inl (List.mem_cons_of_mem _ (inv.covers_enq x hx' c hc)))
  · intro x w h
    rw [lookup_cons] at h
    by_cases hxe : x = e
    · subst hxe
      rw [if_pos rfl] at h
      injection h with h'
      subst h'
      exact computeHook_extend he_keys hv
    · rw [if_neg hxe] at h
      exact computeHook_extend he_keys (inv.hook_fix x w h)

theorem bfs_master {P : DPoset} {dd : DiamondData} {ds : List Diamond}
    (hwf : WF P) :
    ∀ (fuel : Nat) (queue enq : List Nat) (hooks hs : List (Nat × Int)),
      bfs P dd ds fuel queue enq hooks = .ok hs →
      BfsInv P dd ds queue enq hooks →
      ((∀ x v, List.lookup x hooks = some v → List.lookup x hs = some v) ∧
       (∀ x v, List.lookup x hs = some v → computeHook P dd ds hs x = some v) ∧
       (∀ x ∈ queue, x ∈ keys hs) ∧
       (∀ x ∈ keys hs, x ∈ P.elems) ∧
       (keys hs).Nodup ∧
       (∀ x ∈ keys hs, ∀ c ∈ upper_covers P x, c ∈ keys hs)) := by
  intro fuel
  induction fuel with
  | zero =>
    intro queue enq hooks hs hok inv
    cases queue with
    | nil =>
      have hse : hooks = hs := by simpa [bfs] using hok
      subst hse
      refine ⟨fun x v h => h, inv.hook_fix, ?_, inv.keys_sub, inv.keys_nodup, ?_⟩
      · intro x hx
        exact absurd hx (List.not_mem_nil x)
      · intro x hx c hc
        rcases inv.enq_sub c (inv.covers_enq x hx c hc) with hcq | hck
        · exact absurd hcq (List.not_mem_nil c)
        · exact hck
    | cons a t => simp [bfs] at hok
  | succ fuel ih =>
    intro queue enq hooks hs hok inv
    cases queue with
    | nil =>
      have hse : hooks = hs := by simpa [bfs] using hok
      subst hse
      refine ⟨fun x v h => h, inv.hook_fix, ?_, inv.keys_sub, inv.keys_nodup, ?_⟩
      · intro x hx
        exact absurd hx (List.not_mem_nil x)
      · intro x hx c hc
        rcases inv.enq_sub c (inv.covers_enq x hx c hc) with hcq | hck
        · exact absurd hcq (List.not_mem_nil c)
        · exact hck
    | cons e t =>
      simp only [bfs] at hok
      cases hve : computeHook P dd ds hooks e with
      | none =>
        rw [hve] at hok
        exact absurd hok (by simp)
      | some v =>
        rw [hve] at hok
        simp only [] at hok
        have inv' := bfsInv_step hwf inv hve
        obtain ⟨m1, m2, m3, m4, m5, m6⟩ := ih _ _ _ hs hok inv'
        have he_keys : e ∉ keys hooks := inv.queue_keys e (List.mem_cons_self _ _)
        obtain ⟨news, hq, _, _, _, _⟩ :=
          enqueueCovers_spec (upper_covers P e) t (e :: enq)
        refine ⟨?_, m2, ?_, m4, m5, m6⟩
        · intro x w h
          exact m1 x w (lookup_extend he_keys h)
        · intro x hx
          rcases List.mem_cons.mp hx with rfl | hx'
          · have hl : List.lookup x ((x, v) :: hooks) = some v := by
              rw [lookup_cons, if_pos rfl]
            exact lookup_mem_keys (m1 x v hl)
          · apply m3
            rw [hq]
            exact List.mem_append_left _ hx'

theorem bfs_stable {P : DPoset} {dd : DiamondData} {ds : List Diamond}
    (hwf : WF P) :
    ∀ (fuel : Nat) (queue enq : List Nat) (hooks : List (Nat × Int)),
      BfsInv P dd ds queue enq hooks →
      (P.elems.toFinset \ (keys hooks).toFinset).card ≤ fuel →
      ∀ k, bfs P dd ds (fuel + k) queue enq hooks
           = bfs P dd ds fuel queue enq hooks := by
  intro fuel
  induction fuel with
  | zero =>
    intro queue enq hooks inv hcard k
    cases queue with
    | nil => simp [bfs]
    | cons e t =>
      exfalso
      have he : e ∈ P.elems.toFinset \ (keys hooks).toFinset := by
        rw [Finset.mem_sdiff]
        exact ⟨List.mem_toFinset.mpr (inv.queue_sub e (List.mem_cons_self _ _)),
          fun hk => inv.queue_keys e (List.mem_cons_self _ _)
            (List.mem_toFinset.mp hk)⟩
      have hpos : 0 < (P.elems.toFinset \ (keys hooks).toFinset).card :=
        Finset.card_pos.mpr ⟨e, he⟩
      omega
  | succ fuel ih =>
    intro queue enq hooks inv hcard k
    cases queue with
    | nil => simp [bfs]
    | cons e t =>
      have hstep : fuel + 1 + k = (fuel + k) + 1 := by omega
      rw [hstep]
      simp only [bfs]
      cases hve : computeHook P dd ds hooks e with
      | none => rfl
      | some v =>
        have he : e ∈ P.elems.toFinset \ (keys hooks).toFinset := by
          rw [Finset.mem_sdiff]
          exact ⟨List.mem_toFinset.mpr (inv.queue_sub e (List.mem_cons_self _ _)),
            fun hk => inv.queue_keys e (List.mem_cons_self _ _)
              (List.mem_toFinset.mp hk)⟩
        have hset : P.elems.toFinset \ (keys ((e, v) :: hooks)).toFinset
            = (P.elems.toFinset \ (keys hooks).toFinset).erase e := by
          rw [keys_cons]
          ext a
          simp only [Finset.mem_sdiff, Finset.mem_erase, List.mem_toFinset,
            List.toFinset_cons, Finset.mem_insert]
          tauto
        apply ih
        · exact bfsInv_step hwf inv hve
        · rw [hset, Finset.card_erase_of_mem he]
          omega

theorem findExt_mem {P : DPoset} {a b mn mx : Nat}
    (h : findExt P a b = some (mn, mx)) : mn ∈ lower_covers P a := by
  have hm := List.mem_of_find?_eq_some h
  simp only [extCandidates, List.mem_flatMap, List.mem_map] at hm
  obtain ⟨i, hi, j, hj, hij⟩ := hm
  cases hij
  exact hi

theorem findExt_good {P : DPoset} {a b mn mx : Nat}
    (h : findExt P a b = some (mn, mx)) : goodExt P (mn, mx) = true :=
  List.find?_some h

theorem extendLoop_stable {P : DPoset} (hwf : WF P) (hac : AcyclicCovers P)
    (i : Nat) :
    ∀ (fuel : Nat) (st : ChainState) (ms : List Nat),
      ms.Nodup → (∀ m ∈ ms, m ∈ P.elems) → st.min_elmt ∈ ms →
      (∀ m ∈ ms, m = st.min_elmt ∨ Relation.TransGen (stepRel P) st.min_elmt m) →
      P.elems.length + 1 ≤ fuel + ms.length →
      ∀ k, extendLoop P i (fuel + k) st = extendLoop P i fuel st := by
  intro fuel
  induction fuel with
  | zero =>
    intro st ms hnd hsub hmem hrel hbound k
    exfalso
    have h1 : ms.toFinset.card = ms.length := List.toFinset_card_of_nodup hnd
    have h2 : ms.toFinset ⊆ P.elems.toFinset := by
      intro a ha
      exact List.mem_toFinset.mpr (hsub a (List.mem_toFinset.mp ha))
    have h3 : ms.toFinset.card ≤ P.elems.toFinset.card := Finset.card_le_card h2
    have h4 : P.elems.toFinset.card ≤ P.elems.length := P.elems.toFinset_card_le
    omega
  | succ fuel ih =>
    intro st ms hnd hsub hmem hrel hbound k
    have hs : fuel + 1 + k = (fuel + k) + 1 := by omega
    rw [hs]
    simp only [extendLoop]
    cases hf : findExt P st.min_elmt st.max_elmt with
    | none => rfl
    | some p =>
      rcases p with ⟨mn, mx⟩
      have hstep : stepRel P mn st.min_elmt :=
        mem_lower_covers.mp (findExt_mem hf)
      apply ih _ (mn :: ms)
      · refine List.nodup_cons.mpr ⟨?_, hnd⟩
        intro hmn
        rcases hrel mn hmn with heq | htg
        · exact hac _ (Relation.TransGen.single (heq ▸ hstep))
        · exact hac mn (Relation.TransGen.head hstep htg)
      · intro m hm
        rcases List.mem_cons.mp hm with rfl | hm'
        · exact (hwf.2 _ hstep).1
        · exact hsub m hm'
      · exact List.mem_cons_self _ _
      · intro m hm
        rcases List.mem_cons.mp hm with rfl | hm'
        · left
          rfl
        · right
          rcases hrel m hm' with heq | htg
          · rw [heq]
            exact Relation.TransGen.single hstep
          · exact Relation.TransGen.head hstep htg
      · simp only [List.length_cons]
        omega

theorem extendLoop_keys {P : DPoset} (i : Nat) :
    ∀ (fuel : Nat) (st : ChainState) (x : Nat),
      x ∈ keys (extendLoop P i fuel st).dd.diamond_index →
      x ∈ keys st.dd.diamond_index ∨ lower_covers P x ≠ [] := by
  intro fuel
  induction fuel with
  | zero =>
    intro st x hx
    exact Or.inl hx
  | succ fuel ih =>
    intro st x hx
    simp only [extendLoop] at hx
    cases hf : findExt P st.min_elmt st.max_elmt with
    | none =>
      rw [hf] at hx
      exact Or.inl hx
    | some p =>
      rcases p with ⟨mn, mx⟩
      simp only [hf] at hx
      rcases ih _ x hx with hmem | hne
      · rcases List.mem_cons.mp hmem with rfl | hmem'
        · right
          have hgood := findExt_good hf
          simp only [goodExt, Bool.and_eq_true, beq_iff_eq] at hgood
          intro hnil
          rw [hnil] at hgood
          simp at hgood
        · exact Or.inl hmem'
      · exact Or.inr hne

theorem mem_upairs :
    ∀ {l : List Nat} {p : Nat × Nat}, p ∈ upairs l → p.1 ∈ l ∧ p.2 ∈ l := by
  intro l
  induction l with
  | nil =>
    intro p hp
    simp [upairs] at hp
  | cons x xs ih =>
    intro p hp
    simp only [upairs, List.mem_append, List.mem_map] at hp
    rcases hp with ⟨y, hy, rfl⟩ | hp'
    · exact ⟨List.mem_cons_self _ _, List.mem_cons_of_mem _ hy⟩
    · obtain ⟨h1, h2⟩ := ih hp'
      exact ⟨List.mem_cons_of_mem _ h1, List.mem_cons_of_mem _ h2⟩

theorem diamonds_structure {P : DPoset} {d : Diamond} (hd : d ∈ diamonds P) :
    d.bottom ∈ P.elems ∧ (d.bottom, d.side1) ∈ P.covers ∧
    (d.bottom, d.side2) ∈ P.covers ∧ (d.side1, d.top) ∈ P.covers ∧
    (d.side2, d.top) ∈ P.covers := by
  simp only [diamonds, List.mem_flatMap, List.mem_map, List.mem_filter] at hd
  obtain ⟨w, hw, xy, hxy, z, ⟨hz1, hz2⟩, rfl⟩ := hd
  have hxy1 := (mem_upairs hxy).1
  have hxy2 := (mem_upairs hxy).2
  have hz2m : z ∈ upper_covers P xy.2 := by
    simpa using hz2
  exact ⟨hw, mem_upper_covers.mp hxy1, mem_upper_covers.mp hxy2,
    mem_upper_covers.mp hz1, mem_upper_covers.mp hz2m⟩

theorem diamondDataAux_keys {P : DPoset} :
    ∀ (l : List Diamond) (index : Nat) (dd0 : DiamondData),
      (∀ d ∈ l, lower_covers P d.top ≠ []) →
      (∀ x ∈ keys dd0.diamond_index, lower_covers P x ≠ []) →
      ∀ x ∈ keys (diamondDataAux P index l dd0).diamond_index,
        lower_covers P x ≠ [] := by
  intro l
  induction l with
  | nil =>
    intro index dd0 _ h0 x hx
    exact h0 x hx
  | cons d rest ih =>
    intro index dd0 hl h0 x hx
    simp only [diamondDataAux] at hx
    refine ih _ _ (fun j hj => hl j (List.mem_cons_of_mem _ hj)) ?_ x hx
    intro y hy
    simp only [processDiamond] at hy
    rcases extendLoop_keys index _ _ y hy with hmem | hne
    · rcases List.mem_cons.mp hmem with rfl | hmem'
      · exact hl d (List.mem_cons_self _ _)
      · exact h0 y hmem'
    · exact hne

theorem diamondData_keys_lower {P : DPoset} :
    ∀ x ∈ keys (diamondData P).diamond_index, lower_covers P x ≠ [] := by
  intro x hx
  refine diamondDataAux_keys (diamonds P) 0 ⟨[], [], []⟩ ?_ ?_ x hx
  · intro d hd
    exact lower_covers_ne_nil (diamonds_structure hd).2.2.2.1
  · intro y hy
    exact absurd hy (List.not_mem_nil y)

theorem belowFuel_refl {P : DPoset} (e : Nat) :
    ∀ f, belowFuel P f e e = true := by
  intro f
  cases f <;> simp [belowFuel]

theorem belowFuel_of_minimal {P : DPoset} {e : Nat}
    (hmin : lower_covers P e = []) :
    ∀ f x, belowFuel P f x e = true → x = e := by
  intro f
  induction f with
  | zero =>
    intro x h
    simpa [belowFuel] using h
  | succ f ih =>
    intro x h
    simp only [belowFuel, Bool.or_eq_true, beq_iff_eq, List.any_eq_true] at h
    rcases h with rfl | ⟨c, hc, hcb⟩
    · rfl
    · have hce := ih c hcb
      subst hce
      have : x ∈ lower_covers P c := mem_lower_covers.mpr (mem_upper_covers.mp hc)
      rw [hmin] at this
      exact absurd this (List.not_mem_nil x)

theorem order_ideal_of_minimal {P : DPoset} {e : Nat} (hnd : P.elems.Nodup)
    (he : e ∈ P.elems) (hmin : lower_covers P e = []) :
    order_ideal_cardinality P e = 1 := by
  unfold order_ideal_cardinality
  have hcong : P.elems.filter (fun x => belowFuel P P.elems.length x e)
      = P.elems.filter (fun x => x == e) := by
    apply List.filter_congr
    intro x _
    by_cases hxe : x = e
    · subst hxe
      rw [belowFuel_refl]
      simp
    · have hfalse : belowFuel P P.elems.length x e = false := by
        cases hb : belowFuel P P.elems.length x e
        · rfl
        · exact absurd (belowFuel_of_minimal hmin _ x hb) hxe
      rw [hfalse]
      symm
      simp [hxe]
  rw [hcong, ← List.countP_eq_length_filter]
  have hcount : P.elems.count e = 1 := List.count_eq_one_of_mem hnd he
  exact hcount

theorem exists_min_below {P : DPoset} (hwf : WF P) (hac : AcyclicCovers P) :
    ∀ e ∈ P.elems, ∃ m, m ∈ minimal_elements P ∧
      Relation.ReflTransGen (stepRel P) m e := by
  classical
  have key : ∀ (n : Nat), ∀ e ∈ P.elems,
      (P.elems.toFinset.filter
        (fun x => Relation.TransGen (stepRel P) x e)).card ≤ n →
      ∃ m, m ∈ minimal_elements P ∧ Relation.ReflTransGen (stepRel P) m e := by
    intro n
    induction n with
    | zero =>
      intro e he hcard
      cases hlc : lower_covers P e with
      | nil =>
        exact ⟨e, mem_minimal_elements.mpr ⟨he, by rw [hlc]; rfl⟩,
          Relation.ReflTransGen.refl⟩
      | cons x t =>
        exfalso
        have hx : x ∈ lower_covers P e := by
          rw [hlc]
          exact List.mem_cons_self _ _
        have hstep : stepRel P x e := mem_lower_covers.mp hx
        have hxel : x ∈ P.elems := (hwf.2 _ hstep).1
        have hxf : x ∈ P.elems.toFinset.filter
            (fun y => Relation.TransGen (stepRel P) y e) := by
          rw [Finset.mem_filter]
          exact ⟨List.mem_toFinset.mpr hxel, Relation.TransGen.single hstep⟩
        have hpos := Finset.card_pos.mpr ⟨x, hxf⟩
        omega
    | succ n ih =>
      intro e he hcard
      cases hlc : lower_covers P e with
      | nil =>
        exact ⟨e, mem_minimal_elements.mpr ⟨he, by rw [hlc]; rfl⟩,
          Relation.ReflTransGen.refl⟩
      | cons x t =>
        have hx : x ∈ lower_covers P e := by
          rw [hlc]
          exact List.mem_cons_self _ _
        have hstep : stepRel P x e := mem_lower_covers.mp hx
        have hxel : x ∈ P.elems := (hwf.2 _ hstep).1
        have hsub : P.elems.toFinset.filter
              (fun y => Relation.TransGen (stepRel P) y x)
            ⊆ P.elems.toFinset.filter
              (fun y => Relation.TransGen (stepRel P) y e) := by
          intro y hy
          rw [Finset.mem_filter] at hy ⊢
          exact ⟨hy.1, hy.2.tail hstep⟩
        have hxe : x ∈ P.elems.toFinset.filter
            (fun y => Relation.TransGen (stepRel P) y e) := by
          rw [Finset.mem_filter]
          exact ⟨List.mem_toFinset.mpr hxel, Relation.TransGen.single hstep⟩
        have hxx : x ∉ P.elems.toFinset.filter
            (fun y => Relation.TransGen (stepRel P) y x) := by
          intro hmem
          exact hac x (Finset.mem_filter.mp hmem).2
        have hlt : (P.elems.toFinset.filter
              (fun y => Relation.TransGen (stepRel P) y x)).card
            < (P.elems.toFinset.filter
              (fun y => Relation.TransGen (stepRel P) y e)).card := by
          apply Finset.card_lt_card
          rw [Finset.ssubset_def]
          exact ⟨hsub, fun hss => hxx (hss hxe)⟩
        obtain ⟨m, hm1, hm2⟩ := ih x hxel (by omega)
        exact ⟨m, hm1, hm2.tail hstep⟩
  intro e he
  exact key _ e he le_rfl

theorem computeHook_diamond_spec {P : DPoset} {dd : DiamondData}
    {ds : List Diamond} {hs : List (Nat × Int)} {e idx : Nat} {d : Diamond}
    {v : Int}
    (hfix : computeHook P dd ds hs e = some v)
    (hidx : List.lookup e dd.diamond_index = some idx)
    (hd : ds.get? idx = some d) :
    ∃ (b : Nat) (v1 v2 vb : Int),
      List.lookup e dd.min_diamond = some b ∧
      List.lookup d.side1 hs = some v1 ∧
      List.lookup d.side2 hs = some v2 ∧
      List.lookup b hs = some vb ∧
      v = v1 + v2 - vb := by
  unfold computeHook at hfix
  rcases hb0 : List.lookup e dd.min_diamond with _ | b
  · rcases h1 : List.lookup d.side1 hs with _ | v1 <;>
      rcases h2 : List.lookup d.side2 hs with _ | v2 <;>
      simp only [hidx, hd, hb0, Option.none_bind, h1, h2] at hfix <;>
      exact absurd hfix (by simp)
  · rcases h1 : List.lookup d.side1 hs with _ | v1
    · simp only [hidx, hd, hb0, Option.some_bind, h1] at hfix
      exact absurd hfix (by simp)
    · rcases h2 : List.lookup d.side2 hs with _ | v2
      · simp only [hidx, hd, hb0, Option.some_bind, h1, h2] at hfix
        exact absurd hfix (by simp)
      · rcases h3 : List.lookup b hs with _ | vb
        · simp only [hidx, hd, hb0, Option.some_bind, h1, h2, h3] at hfix
          exact absurd hfix (by simp)
        · simp only [hidx, hd, hb0, Option.some_bind, h1, h2, h3] at hfix
          injection hfix with hv
          exact ⟨b, v1, v2, vb, by simp [hb0], by simp [h1], by simp [h2],
            by simp [h3], hv.symm⟩

/-- Claim C1: for every element `e` recorded as the top of a diamond chain
(present in `diamond_index`, with base diamond `d` and chain-bottom `b`
recorded by `min_diamond`), the computed hook mapping satisfies
`hook(e) = hook(side1) + hook(side2) - hook(b)`. -/
theorem C1_chain_top_recurrence {P : DPoset} {hs : List (Nat × Int)}
    {e idx b : Nat} {d : Diamond} {v : Int}
    (hwf : WF P)
    (hok : hooksRun P = .ok hs)
    (hidx : List.lookup e (diamondData P).diamond_index = some idx)
    (hd : (diamonds P).get? idx = some d)
    (hb : List.lookup e (diamondData P).min_diamond = some b)
    (hv : List.lookup e hs = some v) :
    ∃ v1 v2 vb : Int,
      List.lookup d.side1 hs = some v1 ∧
      List.lookup d.side2 hs = some v2 ∧
      List.lookup b hs = some vb ∧
      v = v1 + v2 - vb := by
  have master := bfs_master hwf P.elems.length (minimal_elements P) [] [] hs hok
    (bfsInv_init P _ _ hwf)
  have hfix := master.2.1 e v hv
  obtain ⟨b', v1, v2, vb, hb', h1, h2, h3, hveq⟩ :=
    computeHook_diamond_spec hfix hidx hd
  rw [hb] at hb'
  injection hb' with hbb
  subst hbb
  exact ⟨v1, v2, vb, h1, h2, h3, hveq⟩

/-- Witness for C1 at the single-diamond poset `P1`, chain top `3` with
sides `1`, `2` and chain bottom `0`. -/
theorem C1_chain_top_recurrence_witness :
    ∃ v1 v2 vb : Int,
      List.lookup (Diamond.side1 ⟨0, 1, 2, 3⟩)
        [((3:Nat), (3:Int)), (2, 2), (1, 2), (0, 1)] = some v1 ∧
      List.lookup (Diamond.side2 ⟨0, 1, 2, 3⟩)
        [((3:Nat), (3:Int)), (2, 2), (1, 2), (0, 1)] = some v2 ∧
      List.lookup 0 [((3:Nat), (3:Int)), (2, 2), (1, 2), (0, 1)] = some vb ∧
      (3:Int) = v1 + v2 - vb :=
  @C1_chain_top_recurrence P1 [(3, 3), (2, 2), (1, 2), (0, 1)] 3 0 0
    ⟨0, 1, 2, 3⟩ 3 (by decide) rfl rfl rfl rfl rfl

/-- Claim C2: for every element `e` with no diamond association (not a
chain top), the computed hook is the order-ideal cardinality of `e`; in
particular every minimal element gets hook `1`. -/
theorem C2_ideal_hook {P : DPoset} {hs : List (Nat × Int)} {e : Nat} {v : Int}
    (hwf : WF P) (hok : hooksRun P = .ok hs)
    (hv : List.lookup e hs = some v) :
    (List.lookup e (diamondData P).diamond_index = none →
      v = (order_ideal_cardinality P e : Int)) ∧
    ((lower_covers P e).isEmpty = true → v = 1) := by
  have master := bfs_master hwf P.elems.length (minimal_elements P) [] [] hs hok
    (bfsInv_init P _ _ hwf)
  have hfix := master.2.1 e v hv
  constructor
  · intro hnone
    unfold computeHook at hfix
    simp only [hnone] at hfix
    injection hfix with h
    exact h.symm
  · intro hempty
    have hmin : lower_covers P e = [] := List.isEmpty_iff.mp hempty
    have hnone : List.lookup e (diamondData P).diamond_index = none := by
      rw [lookup_eq_none_iff]
      intro hk
      exact diamondData_keys_lower e hk hmin
    unfold computeHook at hfix
    simp only [hnone] at hfix
    injection hfix with h
    have he_elem : e ∈ P.elems := master.2.2.2.1 e (lookup_mem_keys hv)
    rw [order_ideal_of_minimal hwf.1 he_elem hmin] at h
    exact_mod_cast h.symm

/-- Witness for C2 at the chain poset `P2`: the minimal element `0` is not a
chain top and its hook is the order-ideal cardinality `1`. -/
theorem C2_ideal_hook_witness :
    (List.lookup 0 (diamondData P2).diamond_index = none →
      (1:Int) = (order_ideal_cardinality P2 0 : Int)) ∧
    ((lower_covers P2 0).isEmpty = true → (1:Int) = 1) :=
  @C2_ideal_hook P2 [(2, 3), (1, 2), (0, 1)] 0 1 (by decide) rfl rfl

/-- Claim C3 (counterexample): on the valid finite poset `P9` (well-formed,
acyclic covering relation), the breadth-first traversal dequeues the
chain-top `8` (recorded in `diamond_index`) before the hooks of its diamond
sides `5` and `6` have been computed: the computation aborts with a missing
hook at `8`, so the claimed invariant fails for this finite poset input. -/
theorem C3_dependency_counterexample :
    WF P9 ∧ AcyclicCovers P9 ∧
    hooksRun P9 = .error (.missingHook 8) ∧
    List.lookup 8 (diamondData P9).diamond_index = some 0 ∧
    (diamonds P9).get? 0 = some ⟨4, 5, 6, 8⟩ :=
  ⟨by decide, acyclic_of_rank P9 id (by decide), rfl, rfl, rfl⟩

/-- Claim C3 (amended): whenever the hook computation completes, every
element computed by the diamond recurrence had its two sides and its
chain-bottom present in the hook mapping. -/
theorem C3_dependencies_present {P : DPoset} {hs : List (Nat × Int)}
    {e idx : Nat} {d : Diamond} {v : Int}
    (hwf : WF P) (hok : hooksRun P = .ok hs)
    (hidx : List.lookup e (diamondData P).diamond_index = some idx)
    (hd : (diamonds P).get? idx = some d)
    (hv : List.lookup e hs = some v) :
    (List.lookup d.side1 hs).isSome = true ∧
    (List.lookup d.side2 hs).isSome = true ∧
    ∃ b, List.lookup e (diamondData P).min_diamond = some b ∧
      (List.lookup b hs).isSome = true := by
  have master := bfs_master hwf P.elems.length (minimal_elements P) [] [] hs hok
    (bfsInv_init P _ _ hwf)
  have hfix := master.2.1 e v hv
  obtain ⟨b, v1, v2, vb, hb, h1, h2, h3, _⟩ :=
    computeHook_diamond_spec hfix hidx hd
  refine ⟨?_, ?_, b, hb, ?_⟩ <;> simp [h1, h2, h3]

/-- Witness for the amended C3 at the single-diamond poset `P1`. -/
theorem C3_dependencies_present_witness :
    (List.lookup (Diamond.side1 ⟨0, 1, 2, 3⟩)
       [((3:Nat), (3:Int)), (2, 2), (1, 2), (0, 1)]).isSome = true ∧
    (List.lookup (Diamond.side2 ⟨0, 1, 2, 3⟩)
       [((3:Nat), (3:Int)), (2, 2), (1, 2), (0, 1)]).isSome = true ∧
    ∃ b, List.lookup 3 (diamondData P1).min_diamond = some b ∧
      (List.lookup b
        [((3:Nat), (3:Int)), (2, 2), (1, 2), (0, 1)]).isSome = true :=
  @C3_dependencies_present P1 [(3, 3), (2, 2), (1, 2), (0, 1)] 3 0
    ⟨0, 1, 2, 3⟩ 3 (by decide) rfl rfl rfl rfl

/-- Claim C4: a candidate pair `(mn, mx)` is the one chosen by the extension
search exactly when `mx` has exactly one lower cover, there are exactly two
directed paths from `mn` to `mx`, and `(mn, mx)` is the first such pair in
the enumeration order of the candidate list. -/
theorem C4_extension_rule (P : DPoset) (min_elmt max_elmt mn mx : Nat) :
    findExt P min_elmt max_elmt = some (mn, mx) ↔
      ((lower_covers P mx).length = 1 ∧ pathCount P mn mx = 2 ∧
       ∃ l1 l2, extCandidates P min_elmt max_elmt = l1 ++ (mn, mx) :: l2 ∧
         ∀ p ∈ l1,
           ¬((lower_covers P p.2).length = 1 ∧ pathCount P p.1 p.2 = 2)) := by
  unfold findExt
  rw [find?_eq_some_iff_first]
  constructor
  · rintro ⟨hgood, l1, l2, heq, hl1⟩
    simp only [goodExt, Bool.and_eq_true, beq_iff_eq] at hgood
    refine ⟨hgood.1, hgood.2, l1, l2, heq, ?_⟩
    intro p hp hcontra
    have hfalse := hl1 p hp
    have htrue : goodExt P p = true := by
      simp [goodExt, hcontra.1, hcontra.2]
    rw [htrue] at hfalse
    exact absurd hfalse (by simp)
  · rintro ⟨hlen, hpath, l1, l2, heq, hl1⟩
    refine ⟨by simp [goodExt, hlen, hpath], l1, l2, heq, ?_⟩
    intro x hx
    cases hgx : goodExt P x with
    | false => rfl
    | true =>
      exfalso
      simp only [goodExt, Bool.and_eq_true, beq_iff_eq] at hgx
      exact hl1 x hx hgx

/-- Claim C5: on a well-formed poset with acyclic covering relation, the
chain-extension loop started at any base diamond is stable at
`P.elems.length` iterations (extra fuel changes nothing, so the `while True`
loop terminates within poset-size iterations per base diamond), and the
breadth-first hook loop likewise needs at most `P.elems.length` rounds, so
the whole computation terminates. -/
theorem C5_termination {P : DPoset} (hwf : WF P) (hac : AcyclicCovers P) :
    (∀ i d dd0, d ∈ diamonds P → ∀ k,
      extendLoop P i (P.elems.length + k) ⟨d.bottom, d.top, dd0⟩
        = extendLoop P i P.elems.length ⟨d.bottom, d.top, dd0⟩) ∧
    (∀ k, bfs P (diamondData P) (diamonds P) (P.elems.length + k)
        (minimal_elements P) [] [] = hooksRun P) := by
  constructor
  · intro i d dd0 hd k
    apply extendLoop_stable hwf hac i P.elems.length ⟨d.bottom, d.top, dd0⟩
      [d.bottom]
    · exact List.nodup_singleton _
    · intro m hm
      rw [List.mem_singleton.mp hm]
      exact (diamonds_structure hd).1
    · exact List.mem_singleton.mpr rfl
    · intro m hm
      left
      exact List.mem_singleton.mp hm
    · simp
  · intro k
    unfold hooksRun
    apply bfs_stable hwf P.elems.length _ _ _ (bfsInv_init P _ _ hwf)
    show (P.elems.toFinset \ (keys ([] : List (Nat × Int))).toFinset).card
        ≤ P.elems.length
    have hk : keys ([] : List (Nat × Int)) = [] := rfl
    rw [hk]
    simp only [List.toFinset_nil, Finset.sdiff_empty]
    exact P.elems.toFinset_card_le

/-- Witness for C5 at the single-diamond poset `P1` with one unit of extra
fuel. -/
theorem C5_termination_witness :
    extendLoop P1 0 (P1.elems.length + 1)
        ⟨Diamond.bottom ⟨0, 1, 2, 3⟩, Diamond.top ⟨0, 1, 2, 3⟩, ⟨[], [], []⟩⟩
      = extendLoop P1 0 P1.elems.length
        ⟨Diamond.bottom ⟨0, 1, 2, 3⟩, Diamond.top ⟨0, 1, 2, 3⟩, ⟨[], [], []⟩⟩ ∧
    bfs P1 (diamondData P1) (diamonds P1) (P1.elems.length + 1)
        (minimal_elements P1) [] [] = hooksRun P1 :=
  ⟨(@C5_termination P1 (by decide) (acyclic_of_rank P1 id (by decide))).1 0
      ⟨0, 1, 2, 3⟩ ⟨[], [], []⟩ (by decide) 1,
   (@C5_termination P1 (by decide) (acyclic_of_rank P1 id (by decide))).2 1⟩

/-- Claim C6: when the computation completes on a well-formed acyclic
poset, the hook mapping is total over the poset elements, and `get_hook`
succeeds exactly on poset elements (it fails with a lookup error precisely
when the argument is not an element). -/
theorem C6_total_get_hook {P : DPoset} {hs : List (Nat × Int)}
    (hwf : WF P) (hac : AcyclicCovers P) (hok : hooksRun P = .ok hs) :
    ∀ e, (e ∈ P.elems ↔ ∃ v, get_hook P e = some v) ∧
         (get_hook P e = none ↔ e ∉ P.elems) := by
  have master := bfs_master hwf P.elems.length (minimal_elements P) [] [] hs hok
    (bfsInv_init P _ _ hwf)
  have hget : ∀ e, get_hook P e = List.lookup e hs := by
    intro e
    unfold get_hook
    rw [hok]
    rfl
  have htot : ∀ e ∈ P.elems, e ∈ keys hs := by
    intro e he
    obtain ⟨m, hm1, hm2⟩ := exists_min_below hwf hac e he
    have hm_keys : m ∈ keys hs := master.2.2.1 m hm1
    clear he hm1
    induction hm2 with
    | refl => exact hm_keys
    | tail _ hstep ih =>
      exact master.2.2.2.2.2 _ ih _ (mem_upper_covers.mpr hstep)
  intro e
  have hiff : e ∈ keys hs ↔ e ∈ P.elems := ⟨master.2.2.2.1 e, htot e⟩
  constructor
  · constructor
    · intro he
      have hks := htot e he
      rcases Option.isSome_iff_exists.mp (lookup_isSome_iff.mpr hks) with ⟨v, hv⟩
      exact ⟨v, by rw [hget]; exact hv⟩
    · rintro ⟨v, hv⟩
      rw [hget] at hv
      exact master.2.2.2.1 e (lookup_mem_keys hv)
  · rw [hget, lookup_eq_none_iff]
    exact not_congr hiff

/-- Witness for C6 at the chain poset `P2` and element `1`. -/
theorem C6_total_get_hook_witness :
    ((1:Nat) ∈ P2.elems ↔ ∃ v, get_hook P2 1 = some v) ∧
    (get_hook P2 1 = none ↔ (1:Nat) ∉ P2.elems) :=
  @C6_total_get_hook P2 [(2, 3), (1, 2), (0, 1)] (by decide)
    (acyclic_of_rank P2 id (by decide)) rfl 1

/-- Claim C8: on the single-diamond poset with covers
`0 to 1, 0 to 2, 1 to 3, 2 to 3`, the computed hook mapping is exactly
`0: 1, 1: 2, 2: 2, 3: 3`. -/
theorem C8_single_diamond_hooks :
    get_hook P1 0 = some 1 ∧ get_hook P1 1 = some 2 ∧
    get_hook P1 2 = some 2 ∧ get_hook P1 3 = some 3 ∧
    hooksRun P1 = .ok [(3, 3), (2, 2), (1, 2), (0, 1)] :=
  ⟨rfl, rfl, rfl, rfl, rfl⟩

theorem dictCopy_eq (hs : List (Nat × Int)) : dictCopy hs = hs := by
  induction hs with
  | nil => rfl
  | cons p t ih =>
    show p :: dictCopy t = p :: t
    rw [ih]

/-- Claim C9: the hook accessor is idempotent and side-effect free: on
first access the mapping is computed and cached; the returned mapping is a
copy equal to the computed mapping; a second call returns the identical
mapping without recomputation (the flag is `false` and the state is
unchanged); and whatever function a caller applies to its returned copy,
later `get_hook` calls read only the cached state. -/
theorem C9_cache_idempotent (P : DPoset) :
    ∀ r1 st1 b1, getHooksCall ⟨P, none⟩ = (r1, st1, b1) →
      b1 = true ∧ r1 = hooksRun P ∧
      getHooksCall st1 = (r1, st1, false) ∧
      (∀ _mutate : List (Nat × Int) → List (Nat × Int), ∀ e,
        (getHookCall st1 e).1
          = (hooksRun P).toOption.bind (fun hs => List.lookup e hs)) := by
  intro r1 st1 b1 h
  have hcopy : (hooksRun P).map dictCopy = hooksRun P := by
    cases hr : hooksRun P with
    | error err => rfl
    | ok hs =>
      show Except.ok (dictCopy hs) = Except.ok hs
      rw [dictCopy_eq]
  have h1 : getHooksCall ⟨P, none⟩
      = ((hooksRun P).map dictCopy, ⟨P, some (hooksRun P)⟩, true) := rfl
  rw [h1, hcopy] at h
  injection h with e1 h'
  injection h' with e2 e3
  subst e1
  subst e2
  subst e3
  refine ⟨rfl, rfl, ?_, ?_⟩
  · show ((hooksRun P).map dictCopy, _, false) = (hooksRun P, _, false)
    rw [hcopy]
    rfl
  · intro _ e
    rfl

/-- Witness for C9 at the chain poset `P2`: the second call returns the
cached mapping without recomputation. -/
theorem C9_cache_idempotent_witness :
    getHooksCall ⟨P2, some (hooksRun P2)⟩
      = (hooksRun P2, ⟨P2, some (hooksRun P2)⟩, false) :=
  (C9_cache_idempotent P2 (hooksRun P2) ⟨P2, some (hooksRun P2)⟩ true rfl).2.2.1

/-- Claim C10: `ImageManifoldSubset.__contains__` returns `True` whenever
the inherited containment test succeeds; when the inherited test does not
succeed it returns `False` exactly when the point is not in the codomain,
and otherwise raises `NotImplementedError` — it never silently classifies a
codomain point unknown to the superclass. -/
theorem C10_contains_cases :
    ∀ s c : Bool,
      (s = true → imageSubsetContains s c = .isTrue) ∧
      (s = false → c = false → imageSubsetContains s c = .isFalse) ∧
      (s = false → c = true → imageSubsetContains s c = .notImplementedError) := by
  decide

/-- Witness for C10 at concrete inputs for the three cases. -/
theorem C10_contains_cases_witness :
    imageSubsetContains true false = .isTrue ∧
    imageSubsetContains false false = .isFalse ∧
    imageSubsetContains false true = .notImplementedError :=
  ⟨(C10_contains_cases true false).1 rfl,
   (C10_contains_cases false false).2.1 rfl rfl,
   (C10_contains_cases false true).2.2 rfl rfl⟩
